import Mathlib

/-!
Verification of the TernaryBody statistical comparison utilities
(`F_Functions.py`): `sum_sq_error`, `r_squared`, `KL_div`,
`calculate_errors`, `write_me_up`.

Numeric sequences are embedded as `List ℝ`.  The Python code operates on
numpy arrays of floats; the shallow embedding idealises IEEE doubles as
real numbers.  `KL_div` delegates to `scipy.stats.entropy`, whose
documented behaviour (normalise both vectors to sum to 1, then sum
`rel_entr` termwise) is embedded below.
-/

namespace FFunctions

open scoped Classical

/-- Embedding of `sum_sq_error(a, b)`:
`res = a - b; ssq = np.sum(res**2); return ssq`. -/
noncomputable def sum_sq_error (a b : List ℝ) : ℝ :=
  let res := List.zipWith (fun x y => x - y) a b
  let ssq := (res.map (fun x => x ^ 2)).sum
  ssq

/-- Embedding of `r_squared(a, b)`:
`ybar = np.sum(a)/len(a); ssreg = np.sum((b-ybar)**2);
sstot = np.sum((a-ybar)**2); return 1 - ssreg/sstot`. -/
noncomputable def r_squared (a b : List ℝ) : ℝ :=
  let ybar := a.sum / (a.length : ℝ)
  let ssreg := (b.map (fun x => (x - ybar) ^ 2)).sum
  let sstot := (a.map (fun x => (x - ybar) ^ 2)).sum
  1 - ssreg / sstot

end FFunctions

namespace FFunctions

-- Helper lemmas relating list sums to indexed `Finset.range` sums.

lemma sum_zipWith_eq (f : ℝ → ℝ → ℝ) :
    ∀ (a b : List ℝ), a.length = b.length →
      (List.zipWith f a b).sum =
        ∑ i ∈ Finset.range a.length, f (a.getD i 0) (b.getD i 0) := by
  intro a
  induction a with
  | nil => intro b _; simp
  | cons x xs ih =>
    intro b h
    cases b with
    | nil => simp at h
    | cons y ys =>
      simp only [List.zipWith_cons_cons, List.sum_cons, List.length_cons]
      rw [Finset.sum_range_succ']
      simp only [List.getD_cons_succ, List.getD_cons_zero]
      rw [ih ys (by simpa using h)]
      ring

lemma sum_map_eq (f : ℝ → ℝ) :
    ∀ (a : List ℝ),
      (a.map f).sum = ∑ i ∈ Finset.range a.length, f (a.getD i 0) := by
  intro a
  induction a with
  | nil => simp
  | cons x xs ih =>
    simp only [List.map_cons, List.sum_cons, List.length_cons]
    rw [Finset.sum_range_succ']
    simp only [List.getD_cons_succ, List.getD_cons_zero]
    rw [ih]
    ring

lemma map_sq_zipWith : ∀ (a b : List ℝ),
    ((List.zipWith (fun x y => x - y) a b).map (fun x => x ^ 2)) =
      List.zipWith (fun x y => (x - y) ^ 2) a b := by
  intro a
  induction a with
  | nil => intro b; simp
  | cons x xs ih =>
    intro b
    cases b with
    | nil => simp
    | cons y ys => simp [ih ys]

lemma zipWith_sub_sq_comm : ∀ (a b : List ℝ),
    List.zipWith (fun x y => (x - y) ^ 2) a b =
      List.zipWith (fun x y => (x - y) ^ 2) b a := by
  intro a
  induction a with
  | nil => intro b; cases b <;> simp
  | cons x xs ih =>
    intro b
    cases b with
    | nil => simp
    | cons y ys =>
      simp only [List.zipWith_cons_cons]
      rw [ih ys]
      congr 1
      ring

end FFunctions

open FFunctions

/-- Claim C1: for equal-length sequences `a`, `b`, `sum_sq_error a b` is the
sum over `i` of `(a[i] - b[i])^2`; it is non-negative, and it is `0` iff
`a` and `b` are elementwise equal. -/
theorem sum_sq_error_spec (a b : List ℝ) (h : a.length = b.length) :
    sum_sq_error a b = ∑ i ∈ Finset.range a.length, (a.getD i 0 - b.getD i 0) ^ 2 ∧
    0 ≤ sum_sq_error a b ∧
    (sum_sq_error a b = 0 ↔ a = b) := by
  have hrw : sum_sq_error a b =
      ∑ i ∈ Finset.range a.length, (a.getD i 0 - b.getD i 0) ^ 2 := by
    simp only [sum_sq_error]
    rw [map_sq_zipWith, sum_zipWith_eq _ a b h]
  refine ⟨hrw, ?_, ?_⟩
  · rw [hrw]
    exact Finset.sum_nonneg fun i _ => sq_nonneg _
  · rw [hrw]
    constructor
    · intro h0
      have hall := (Finset.sum_eq_zero_iff_of_nonneg
        (fun i _ => sq_nonneg (a.getD i 0 - b.getD i 0))).mp h0
      apply List.ext_getElem h
      intro i h1 h2
      have := hall i (Finset.mem_range.mpr h1)
      have hab : a.getD i 0 = b.getD i 0 := by
        have := sq_eq_zero_iff.mp this
        linarith [sub_eq_zero.mp this]
      rwa [List.getD_eq_getElem a 0 h1, List.getD_eq_getElem b 0 h2] at hab
    · intro hab
      subst hab
      exact Finset.sum_eq_zero fun i _ => by simp

/-- Witness for C1 at `a = [1, 2]`, `b = [1, 3]`. -/
theorem sum_sq_error_spec_witness :
    ([1, 2] : List ℝ).length = ([1, 3] : List ℝ).length ∧
    (sum_sq_error [1, 2] [1, 3] =
        ∑ i ∈ Finset.range (([1, 2] : List ℝ).length),
          (([1, 2] : List ℝ).getD i 0 - ([1, 3] : List ℝ).getD i 0) ^ 2 ∧
      0 ≤ sum_sq_error [1, 2] [1, 3] ∧
      (sum_sq_error [1, 2] [1, 3] = 0 ↔ ([1, 2] : List ℝ) = [1, 3])) :=
  ⟨rfl, sum_sq_error_spec [1, 2] [1, 3] rfl⟩

/-- Claim C7: `sum_sq_error` is symmetric. -/
theorem sum_sq_error_symm (a b : List ℝ) :
    sum_sq_error a b = sum_sq_error b a := by
  simp only [sum_sq_error]
  rw [map_sq_zipWith, map_sq_zipWith, zipWith_sub_sq_comm]

namespace FFunctions

lemma eq_zero_of_sum_nonneg_zero :
    ∀ (l : List ℝ), (∀ x ∈ l, 0 ≤ x) → l.sum = 0 → ∀ x ∈ l, x = 0 := by
  intro l
  induction l with
  | nil => intro _ _ x hx; simp at hx
  | cons y ys ih =>
    intro hn hs x hx
    have hy : 0 ≤ y := hn y (by simp)
    have hys : 0 ≤ ys.sum := List.sum_nonneg fun z hz => hn z (by simp [hz])
    have hsum : y + ys.sum = 0 := by simpa using hs
    rcases List.mem_cons.mp hx with rfl | hx
    · linarith
    · exact ih (fun z hz => hn z (by simp [hz])) (by linarith) x hx

lemma sstot_ne_zero (a : List ℝ) (c : ℝ) (h : ∃ x ∈ a, ∃ y ∈ a, x ≠ y) :
    (a.map (fun z => (z - c) ^ 2)).sum ≠ 0 := by
  intro h0
  have hall := eq_zero_of_sum_nonneg_zero _
    (by
      intro x hx
      rcases List.mem_map.mp hx with ⟨z, _, rfl⟩
      exact sq_nonneg _) h0
  obtain ⟨x, hx, y, hy, hxy⟩ := h
  have hx0 : (x - c) ^ 2 = 0 := hall _ (List.mem_map.mpr ⟨x, hx, rfl⟩)
  have hy0 : (y - c) ^ 2 = 0 := hall _ (List.mem_map.mpr ⟨y, hy, rfl⟩)
  have hx1 : x = c := sub_eq_zero.mp (sq_eq_zero_iff.mp hx0)
  have hy1 : y = c := sub_eq_zero.mp (sq_eq_zero_iff.mp hy0)
  exact hxy (hx1.trans hy1.symm)

end FFunctions

/-- Claim C2: for equal-length sequences with `a` not constant, `r_squared a b`
equals `1 - ssreg / sstot` where `ybar` is the mean of `a`,
`ssreg = ∑ (b[i] - ybar)^2` and `sstot = ∑ (a[i] - ybar)^2` — the
non-standard formula using `b`'s deviation from `a`'s mean. -/
theorem r_squared_spec (a b : List ℝ) (hlen : a.length = b.length)
    (hnc : ∃ x ∈ a, ∃ y ∈ a, x ≠ y) :
    r_squared a b =
      1 - (∑ i ∈ Finset.range b.length,
              (b.getD i 0 - a.sum / (a.length : ℝ)) ^ 2) /
          (∑ i ∈ Finset.range a.length,
              (a.getD i 0 - a.sum / (a.length : ℝ)) ^ 2) := by
  simp only [r_squared]
  rw [sum_map_eq, sum_map_eq]

/-- Witness for C2 at `a = [0, 1]`, `b = [2, 3]`. -/
theorem r_squared_spec_witness :
    (([0, 1] : List ℝ).length = ([2, 3] : List ℝ).length ∧
      ∃ x ∈ ([0, 1] : List ℝ), ∃ y ∈ ([0, 1] : List ℝ), x ≠ y) ∧
    r_squared [0, 1] [2, 3] =
      1 - (∑ i ∈ Finset.range (([2, 3] : List ℝ).length),
              (([2, 3] : List ℝ).getD i 0 -
                ([0, 1] : List ℝ).sum / ((([0, 1] : List ℝ).length : ℕ) : ℝ)) ^ 2) /
          (∑ i ∈ Finset.range (([0, 1] : List ℝ).length),
              (([0, 1] : List ℝ).getD i 0 -
                ([0, 1] : List ℝ).sum / ((([0, 1] : List ℝ).length : ℕ) : ℝ)) ^ 2) :=
  ⟨⟨rfl, 0, by simp, 1, by simp, by norm_num⟩,
    r_squared_spec [0, 1] [2, 3] rfl ⟨0, by simp, 1, by simp, by norm_num⟩⟩

/-- Claim C8: for non-constant `a`, `r_squared a a = 0` (not 1): with `b = a`,
`ssreg = sstot`, so `1 - ssreg/sstot = 0`. -/
theorem r_squared_self (a : List ℝ) (h : ∃ x ∈ a, ∃ y ∈ a, x ≠ y) :
    r_squared a a = 0 := by
  simp only [r_squared]
  rw [div_self (sstot_ne_zero a (a.sum / (a.length : ℝ)) h)]
  ring

/-- Witness for C8 at `a = [0, 1]`. -/
theorem r_squared_self_witness :
    (∃ x ∈ ([0, 1] : List ℝ), ∃ y ∈ ([0, 1] : List ℝ), x ≠ y) ∧
    r_squared [0, 1] [0, 1] = 0 :=
  ⟨⟨0, by simp, 1, by simp, by norm_num⟩,
    r_squared_self [0, 1] ⟨0, by simp, 1, by simp, by norm_num⟩⟩

namespace FFunctions

open scoped Classical

/-- Embedding of scipy `rel_entr(x, y)`: `x * log(x / y)` when `0 < x` and
`0 < y`; `0` when `x = 0` and `0 ≤ y`.  (scipy yields `+inf` on the remaining
inputs, which has no counterpart in `ℝ`; every theorem below carries
hypotheses keeping the inputs out of that region.) -/
noncomputable def rel_entr (x y : ℝ) : ℝ :=
  if 0 < x ∧ 0 < y then x * Real.log (x / y)
  else if x = 0 ∧ 0 ≤ y then 0
  else 0

/-- Embedding of `scipy.stats.entropy(pk, qk)` as documented: normalise `pk`
and `qk` so each sums to 1, then return the sum of elementwise `rel_entr`. -/
noncomputable def entropy (pk qk : List ℝ) : ℝ :=
  let p := pk.map (fun x => x / pk.sum)
  let q := qk.map (fun x => x / qk.sum)
  (List.zipWith rel_entr p q).sum

/-- Embedding of `KL_div(a, b)`: `res = entropy(a, b); return res`. -/
noncomputable def KL_div (a b : List ℝ) : ℝ := entropy a b

lemma zipWith_map_map (h : ℝ → ℝ → ℝ) (f g : ℝ → ℝ) :
    ∀ (a b : List ℝ),
      List.zipWith h (a.map f) (b.map g) =
        List.zipWith (fun x y => h (f x) (g y)) a b := by
  intro a
  induction a with
  | nil => intro b; simp
  | cons x xs ih =>
    intro b
    cases b with
    | nil => simp
    | cons y ys => simp [ih ys]

lemma sum_map_mul (c : ℝ) : ∀ (l : List ℝ),
    (l.map (fun x => c * x)).sum = c * l.sum := by
  intro l
  induction l with
  | nil => simp
  | cons x xs ih =>
    simp only [List.map_cons, List.sum_cons, ih]
    ring

lemma map_div_scale (c : ℝ) (hc : c ≠ 0) (l : List ℝ) :
    (l.map (fun x => c * x)).map
        (fun x => x / ((l.map (fun x => c * x)).sum)) =
      l.map (fun x => x / l.sum) := by
  rw [sum_map_mul, List.map_map]
  apply List.map_congr_left
  intro x _
  exact mul_div_mul_left x l.sum hc

lemma getD_mem_of_lt (l : List ℝ) (i : ℕ) (hi : i < l.length) :
    l.getD i 0 ∈ l := by
  rw [List.getD_eq_getElem l 0 hi]
  exact List.getElem_mem hi

end FFunctions

/-- Counterexample for C3: on `a = [2, 2]`, `b = [1, 1]` the code (which
normalises both inputs before the divergence) returns `0`, while the raw
unnormalised formula `∑ a[i] * log(a[i]/b[i])` gives `4 * log 2 ≠ 0`. -/
theorem KL_div_raw_counterexample :
    KL_div [2, 2] [1, 1] = 0 ∧
      (2 : ℝ) * Real.log (2 / 1) + 2 * Real.log (2 / 1) ≠ 0 := by
  constructor
  · simp only [KL_div, entropy, List.map_cons, List.map_nil, List.sum_cons,
      List.sum_nil, List.zipWith_cons_cons, List.zipWith_nil_right]
    norm_num [rel_entr, Real.log_one]
  · have h2 : 0 < Real.log 2 := Real.log_pos (by norm_num)
    have h4 : (2 : ℝ) * Real.log (2 / 1) + 2 * Real.log (2 / 1) =
        4 * Real.log 2 := by
      rw [show ((2 : ℝ) / 1) = 2 from by norm_num]
      ring
    rw [h4]
    exact ne_of_gt (by linarith)

/-- Claim C3 (amended): for equal-length non-negative sequences `a`, `b`
where `b` vanishes only where `a` does, `KL_div a b` is the divergence of the
NORMALISED sequences: with `S = Σa` and `T = Σb`, it equals
`∑ (a[i]/S) * log((a[i]/S) / (b[i]/T))`, terms with `a[i] = 0` contributing
`0` — not the raw unnormalised sum. -/
theorem KL_div_spec (a b : List ℝ) (hlen : a.length = b.length)
    (ha : ∀ x ∈ a, 0 ≤ x) (hb : ∀ x ∈ b, 0 ≤ x)
    (hsupp : ∀ i, b.getD i 0 = 0 → a.getD i 0 = 0) :
    KL_div a b =
      ∑ i ∈ Finset.range a.length,
        (if a.getD i 0 = 0 then 0
         else (a.getD i 0 / a.sum) *
           Real.log ((a.getD i 0 / a.sum) / (b.getD i 0 / b.sum))) := by
  simp only [KL_div, entropy]
  rw [zipWith_map_map, sum_zipWith_eq _ a b hlen]
  apply Finset.sum_congr rfl
  intro i hi
  have hia : i < a.length := Finset.mem_range.mp hi
  have hib : i < b.length := hlen ▸ hia
  by_cases hx : a.getD i 0 = 0
  · have hbT : 0 ≤ b.getD i 0 / b.sum :=
      div_nonneg (hb _ (getD_mem_of_lt b i hib))
        (List.sum_nonneg hb)
    have hx0 : a.getD i 0 / a.sum = 0 := by rw [hx]; simp
    have hneg : ¬(0 < a.getD i 0 / a.sum ∧ 0 < b.getD i 0 / b.sum) := by
      intro hcon
      rw [hx0] at hcon
      exact lt_irrefl 0 hcon.1
    rw [rel_entr, if_neg hneg, if_pos ⟨hx0, hbT⟩, if_pos hx]
  · have hxpos : 0 < a.getD i 0 :=
      lt_of_le_of_ne (ha _ (getD_mem_of_lt a i hia)) (Ne.symm hx)
    have hy : b.getD i 0 ≠ 0 := fun h0 => hx (hsupp i h0)
    have hypos : 0 < b.getD i 0 :=
      lt_of_le_of_ne (hb _ (getD_mem_of_lt b i hib)) (Ne.symm hy)
    have hS : 0 < a.sum :=
      lt_of_lt_of_le hxpos (List.single_le_sum ha _ (getD_mem_of_lt a i hia))
    have hT : 0 < b.sum :=
      lt_of_lt_of_le hypos (List.single_le_sum hb _ (getD_mem_of_lt b i hib))
    rw [rel_entr, if_pos ⟨div_pos hxpos hS, div_pos hypos hT⟩, if_neg hx]

/-- Witness for the amended C3 at `a = [1, 0]`, `b = [2, 1]`. -/
theorem KL_div_spec_witness :
    (([1, 0] : List ℝ).length = ([2, 1] : List ℝ).length ∧
      (∀ x ∈ ([1, 0] : List ℝ), 0 ≤ x) ∧ (∀ x ∈ ([2, 1] : List ℝ), 0 ≤ x) ∧
      (∀ i, ([2, 1] : List ℝ).getD i 0 = 0 → ([1, 0] : List ℝ).getD i 0 = 0)) ∧
    KL_div [1, 0] [2, 1] =
      ∑ i ∈ Finset.range (([1, 0] : List ℝ).length),
        (if ([1, 0] : List ℝ).getD i 0 = 0 then 0
         else (([1, 0] : List ℝ).getD i 0 / ([1, 0] : List ℝ).sum) *
           Real.log ((([1, 0] : List ℝ).getD i 0 / ([1, 0] : List ℝ).sum) /
             (([2, 1] : List ℝ).getD i 0 / ([2, 1] : List ℝ).sum))) :=
  ⟨⟨rfl,
    by intro x hx; rcases List.mem_cons.mp hx with rfl | hx <;> simp_all,
    by intro x hx; rcases List.mem_cons.mp hx with rfl | hx <;> simp_all,
    by
      intro i h
      rcases i with _ | _ | i
      · norm_num at h
      · norm_num at h
      · simp [List.getD_cons_succ, List.getD_nil]⟩,
    KL_div_spec [1, 0] [2, 1] rfl
      (by intro x hx; rcases List.mem_cons.mp hx with rfl | hx <;> simp_all)
      (by intro x hx; rcases List.mem_cons.mp hx with rfl | hx <;> simp_all)
      (by
        intro i h
        rcases i with _ | _ | i
        · norm_num at h
        · norm_num at h
        · simp [List.getD_cons_succ, List.getD_nil])⟩

/-- Claim C10: `KL_div` is invariant under positive scaling of either
argument, because the entropy computation normalises both inputs to sum
to 1 before computing the divergence. -/
theorem KL_div_scale_invariant (c : ℝ) (hc : 0 < c) (a b : List ℝ) :
    KL_div (a.map (fun x => c * x)) b = KL_div a b ∧
    KL_div a (b.map (fun x => c * x)) = KL_div a b := by
  constructor
  · simp only [KL_div, entropy]
    rw [map_div_scale c hc.ne' a]
  · simp only [KL_div, entropy]
    rw [map_div_scale c hc.ne' b]

/-- Witness for C10 at `c = 2`, `a = [1, 1]`, `b = [1, 2]`. -/
theorem KL_div_scale_invariant_witness :
    (0 : ℝ) < 2 ∧
    (KL_div (([1, 1] : List ℝ).map (fun x => 2 * x)) [1, 2] =
        KL_div [1, 1] [1, 2] ∧
      KL_div [1, 1] (([1, 2] : List ℝ).map (fun x => 2 * x)) =
        KL_div [1, 1] [1, 2]) :=
  ⟨by norm_num, KL_div_scale_invariant 2 (by norm_num) [1, 1] [1, 2]⟩

namespace FFunctions

open scoped Classical

/-- Round a real to the nearest integer, ties to even — the rounding used by
Python fixed-point float formatting. -/
noncomputable def roundHalfEven (x : ℝ) : ℤ :=
  let f := ⌊x⌋
  if x - f < 1 / 2 then f
  else if 1 / 2 < x - f then f + 1
  else if f % 2 = 0 then f else f + 1

/-- Zero-pad the decimal rendering of `m` on the left to width `w`. -/
def padZeros (w : Nat) (m : Nat) : String :=
  let s := toString m
  String.mk (List.replicate (w - s.length) '0') ++ s

/-- Embedding of Python fixed-point formatting (`'%1.3f'`, `'{:1.2f}'`):
the sign of `x`, then `|x|` rounded to `prec` decimal digits.  The minimum
field width 1 never pads, since every rendering has at least one character. -/
noncomputable def formatFixed (prec : Nat) (x : ℝ) : String :=
  let sign := if x < 0 then "-" else ""
  let m := (roundHalfEven (|x| * (10 : ℝ) ^ prec)).toNat
  sign ++ toString (m / 10 ^ prec) ++ "." ++ padZeros prec (m % 10 ^ prec)

/-- Embedding of `calculate_errors(namer, booler, actual, sim)`:
computes the three metrics, then builds the report block by repeated
string concatenation, one branch per truthiness of `booler`. -/
noncomputable def calculate_errors (namer : String) (booler : Bool)
    (actual sim : List ℝ) : String :=
  let SSE := sum_sq_error actual sim
  let Rsq := r_squared actual sim
  let KLd := KL_div actual sim
  if booler then
    "Results for " ++ namer ++ ": \n"
      ++ "UNFIT SIMULATION \n"
      ++ "     SSE = " ++ formatFixed 3 SSE ++ " \n"
      ++ "     Rsq = " ++ formatFixed 3 Rsq ++ " \n"
      ++ "     KLd = " ++ formatFixed 3 KLd ++ " \n \n"
  else
    "Results for " ++ namer ++ ": \n"
      ++ "FITTED SIMULATION \n"
      ++ "     SSE = " ++ formatFixed 3 SSE ++ " \n"
      ++ "     Rsq = " ++ formatFixed 3 Rsq ++ " \n"
      ++ "     KLd = " ++ formatFixed 3 KLd ++ " \n \n"

/-- Embedding of `write_me_up(namer, actual, sim, fit, fitted, error, save)`.
`fitted` and `error` are arbitrary displayable values, embedded as their
`str(...)` renderings.  The filesystem effect is modelled explicitly: the
second component is `some (path, contents)` exactly when the call opens
`namer + ".txt"` and writes to it, and `none` otherwise. -/
noncomputable def write_me_up (namer : String) (actual sim fit : List ℝ)
    (fitted error : String) (save : Bool) :
    (String × String) × Option (String × String) :=
  let results1 := calculate_errors namer true actual sim
  let error_before := formatFixed 2 (sum_sq_error actual sim)
  let results2 := calculate_errors namer false actual fit
  let error_after := formatFixed 2 (sum_sq_error actual fit)
  let fileOut :=
    if save then
      some (namer ++ ".txt",
        results1 ++ results2
          ++ ("Fit = " ++ fitted ++ "\n")
          ++ ("Error = " ++ error ++ "\n"))
    else none
  ((error_before, error_after), fileOut)

end FFunctions

/-- Claim C6: `calculate_errors namer booler actual sim` is the header
`"Results for <namer>: \n"`, then `"UNFIT SIMULATION"` when `booler` is
truthy and `"FITTED SIMULATION"` otherwise, then the SSE, R-squared and
KL-divergence lines each formatted to 3 decimal places, ending with a
trailing blank line. -/
theorem calculate_errors_spec (namer : String) (booler : Bool)
    (actual sim : List ℝ) :
    calculate_errors namer booler actual sim =
      "Results for " ++ namer ++ ": \n"
        ++ (if booler then "UNFIT SIMULATION \n" else "FITTED SIMULATION \n")
        ++ "     SSE = " ++ formatFixed 3 (sum_sq_error actual sim) ++ " \n"
        ++ "     Rsq = " ++ formatFixed 3 (r_squared actual sim) ++ " \n"
        ++ "     KLd = " ++ formatFixed 3 (KL_div actual sim) ++ " \n \n" := by
  cases booler <;> simp [calculate_errors, String.append_assoc]

/-- Claim C5: `write_me_up` returns the pair of SSE values
`(SSE(actual, sim), SSE(actual, fit))`, each formatted to 2 decimal places,
regardless of the value of `save`. -/
theorem write_me_up_returns (namer : String) (actual sim fit : List ℝ)
    (fitted error : String) (save : Bool) :
    (write_me_up namer actual sim fit fitted error save).1 =
      (formatFixed 2 (sum_sq_error actual sim),
       formatFixed 2 (sum_sq_error actual fit)) := rfl

/-- Claim C9: with `save = false`, `write_me_up` touches no file (its file
effect is `none`) and still returns the two formatted error strings. -/
theorem write_me_up_no_save (namer : String) (actual sim fit : List ℝ)
    (fitted error : String) :
    (write_me_up namer actual sim fit fitted error false).2 = none ∧
    (write_me_up namer actual sim fit fitted error false).1 =
      (formatFixed 2 (sum_sq_error actual sim),
       formatFixed 2 (sum_sq_error actual fit)) := ⟨rfl, rfl⟩
